import Mathlib

/-
  Verification of the StationManager core (virtual bistro simulation).

  The development shallowly embeds `src/StationManager.cpp`: the station
  registry (an ordered list of `KitchenStation` handles), the backup
  ingredient pool, the dish queue, and the dispatch algorithm
  `processAllDishes`.  Classes declared outside the repository's sources
  (`KitchenStation`, `Dish`, `Ingredient`, and the linked-list base class)
  are modelled from the specification's data model and collaborator
  contract; each such definition says so in its doc comment.
-/

set_option autoImplicit false

namespace Bistro

/-- Modelled from the spec: the `Ingredient` record type (declared in a
header outside `src/`): (name, quantity-on-hand, quantity-required,
unit-price).  The price field is only ever copied, never computed with,
so it is carried as an integer stand-in for the C++ `double`. -/
structure Ingredient where
  name : String
  quantity : Int
  required_quantity : Int
  price : Int
  deriving DecidableEq

/-- Modelled from the spec: the work-item (`Dish`) collaborator contract
(class declared outside `src/`): a name plus the dish's own ingredient
requirement list (`getName` / `getIngredients`). -/
structure Dish where
  name : String
  ingredients : List Ingredient
  deriving DecidableEq

/-- Modelled from the spec: the `KitchenStation` collaborator (class
declared outside `src/`): a stable name, the list of assigned dishes
(`getDishes`), and the station's own ingredient stock
(`getIngredientsStock`). -/
structure KitchenStation where
  name : String
  dishes : List Dish
  stock : List Ingredient
  deriving DecidableEq

/-- The `StationManager` state: the ordered station registry (the
singly-linked list base class, modelled as a `List` per the spec's
ordered-sequence reading), the FIFO dish queue, and the backup
ingredient pool `backup_ingredients_`. -/
structure StationManager where
  stations : List KitchenStation
  dish_queue_ : List Dish
  backup_ingredients_ : List Ingredient
  deriving DecidableEq

/-- Zero-based index of the first list entry satisfying `p`
(the linear scans used throughout `StationManager.cpp`). -/
def firstIdx? {α : Type} (p : α → Bool) : List α → Option Nat
  | [] => none
  | x :: xs => if p x then some 0 else (firstIdx? p xs).map (· + 1)

/-- In-place update of the list entry at index `i` (mutation through a
node/iterator in the C++ code). -/
def updateAt {α : Type} (i : Nat) (f : α → α) : List α → List α
  | [] => []
  | x :: xs =>
    match i with
    | 0 => f x :: xs
    | n + 1 => x :: updateAt n f xs

/-- Total quantity held for ingredient name `n` in a list of ingredient
records (sums duplicates, so it is well-defined without a uniqueness
assumption). -/
def qtyOf (n : String) : List Ingredient → Int
  | [] => 0
  | r :: rest => (if r.name = n then r.quantity else 0) + qtyOf n rest

/-- Quantity reported by the first matching record, `0` when absent: the
`current_quantity` scan in `processAllDishes` initialises to `0` and
breaks at the first name match. -/
def firstStockQty (n : String) : List Ingredient → Int
  | [] => 0
  | r :: rest => if r.name = n then r.quantity else firstStockQty n rest

/-- Whether some record with name `n` is present. -/
def hasIngredientName (n : String) (l : List Ingredient) : Bool :=
  l.any (fun r => r.name == n)

/-- First record with name `n`, if any (the iterator scan over
`backup_ingredients_`). -/
def poolFind (n : String) : List Ingredient → Option Ingredient
  | [] => none
  | r :: rest => if r.name = n then some r else poolFind n rest

/-- Modelled from the spec: `KitchenStation::replenishStationIngredients`
(declared outside `src/`), the §4.2 "add" semantics used by `creditStock`:
the first record with a matching name has its quantity incremented
(other fields untouched); with no match the record is appended. -/
def creditStock (stock : List Ingredient) (ing : Ingredient) : List Ingredient :=
  match stock with
  | [] => [ing]
  | r :: rest =>
    if r.name = ing.name then {r with quantity := r.quantity + ing.quantity} :: rest
    else r :: creditStock rest ing

/-- Folding `creditStock` over a batch of records (the ingredient loop in
`mergeStations`). -/
def creditAll (stock : List Ingredient) (recs : List Ingredient) : List Ingredient :=
  recs.foldl creditStock stock

/-- The iterator scan of `replenishStationIngredientFromBackup` over the
backup pool: find the first record named `n`; fail if none or if its
quantity is below `q`; otherwise decrement by `q`, dropping the record
when its quantity reaches exactly zero.  Returns the new pool together
with the matched record's price (copied onto the credited record). -/
def withdrawFromPool (n : String) (q : Int) : List Ingredient → Option (List Ingredient × Int)
  | [] => none
  | r :: rest =>
    if r.name = n then
      if q ≤ r.quantity then
        some ((if r.quantity - q = 0 then rest else {r with quantity := r.quantity - q} :: rest), r.price)
      else none
    else (withdrawFromPool n q rest).map (fun x => (r :: x.1, x.2))

/-- The in-place mutation `mergeStations` performs on station A through
its pointer: append B's dish snapshot (duplicates kept) and credit B's
stock snapshot record by record with the `creditStock` semantics. -/
def mergeInto (s2 : KitchenStation) (st : KitchenStation) : KitchenStation :=
  {st with dishes := st.dishes ++ s2.dishes, stock := creditAll st.stock s2.stock}

/-- The head-to-tail scan of `StationManager::findStation` over a
station list: the first entry with the given name. -/
def findFirstStation (n : String) (l : List KitchenStation) : Option KitchenStation :=
  match firstIdx? (fun st => st.name == n) l with
  | none => none
  | some i => l[i]?

namespace StationManager

/-- `StationManager::findStation`: pointer to the first registry entry
with the given name. -/
def findStation (sm : StationManager) (n : String) : Option KitchenStation :=
  findFirstStation n sm.stations

/-- `StationManager::addStation`: `insert(item_count_, station)`, i.e. an
unconditional append at the end (always succeeds). -/
def addStation (sm : StationManager) (st : KitchenStation) : StationManager × Bool :=
  ({sm with stations := sm.stations ++ [st]}, true)

/-- `StationManager::removeStation`: remove the first entry with a
matching name; `false` when absent. -/
def removeStation (sm : StationManager) (n : String) : StationManager × Bool :=
  match firstIdx? (fun st => st.name == n) sm.stations with
  | none => (sm, false)
  | some i => ({sm with stations := sm.stations.eraseIdx i}, true)

/-- `StationManager::moveStationToFront`: fail if the name is absent;
no-op success if the head already carries the name; otherwise remove the
first matching entry and reinsert the same handle at index 0. -/
def moveStationToFront (sm : StationManager) (n : String) : StationManager × Bool :=
  match firstIdx? (fun st => st.name == n) sm.stations with
  | none => (sm, false)
  | some i =>
    match sm.stations[i]? with
    | none => (sm, false)
    | some st =>
      match sm.stations with
      | [] => (sm, false)
      | h :: _ =>
        if h.name = n then (sm, true)
        else ({sm with stations := st :: sm.stations.eraseIdx i}, true)

/-- `StationManager::mergeStations`: fail unless both names resolve; on
success append B's dish snapshot onto A (duplicates kept), credit B's
stock snapshot onto A with the `creditStock` semantics, then remove the
first entry named B.  Mutation happens in place through the pointer to
the first entry named A. -/
def mergeStations (sm : StationManager) (n1 n2 : String) : StationManager × Bool :=
  match firstIdx? (fun st => st.name == n1) sm.stations, sm.findStation n2 with
  | some j, some s2 =>
    let sm1 : StationManager := {sm with stations := updateAt j (mergeInto s2) sm.stations}
    ((sm1.removeStation n2).1, true)
  | _, _ => (sm, false)

/-- `StationManager::replenishStationIngredientFromBackup`: reject a
non-positive quantity; fail when the station name is absent; scan the
backup pool for the ingredient; on a sufficient first match, credit the
first station with that name with `Ingredient(name, qty, 0, price)` and
decrement (or erase) the pool record. -/
def replenishStationIngredientFromBackup (sm : StationManager) (sname iname : String) (q : Int) :
    StationManager × Bool :=
  if q ≤ 0 then (sm, false)
  else
    match firstIdx? (fun st => st.name == sname) sm.stations with
    | none => (sm, false)
    | some j =>
      match withdrawFromPool iname q sm.backup_ingredients_ with
      | none => (sm, false)
      | some (pool, p) =>
        ({sm with
           stations := updateAt j
             (fun st => {st with stock := creditStock st.stock ⟨iname, q, 0, p⟩}) sm.stations,
           backup_ingredients_ := pool}, true)

end StationManager

/-- Modelled from the spec: the §6 collaborator contract for
`KitchenStation::canCompleteOrder` and `KitchenStation::prepareDish`,
whose implementations live outside `src/`.  `canProduce` is the pure
capability query; `produce` returns the station's new stock on success
and `none` on failure (on failure the stock is left unchanged, which the
embedding realises by keeping the old station). -/
structure StationBehavior where
  canProduce : KitchenStation → String → Bool
  produce : KitchenStation → String → Option (List Ingredient)

/-- Observable events of one station visit in `processAllDishes`,
mirroring the decision points (and trace lines) of the source:
the "dish not available" skip, the capability query, each backup
withdrawal attempt, and each invocation of the production step. -/
inductive Event where
  | notAvailable : Event
  | canQuery : Bool → Event
  | withdrawAttempt : String → Int → Bool → Event
  | produceCall : Bool → Event
  deriving DecidableEq

/-- Number of production-step invocations recorded in an event list. -/
def produceCalls (evs : List Event) : Nat :=
  evs.countP (fun e => match e with | Event.produceCall _ => true | _ => false)

/-- Whether an event list records any backup-withdrawal attempt. -/
def hasWithdrawEvent (evs : List Event) : Bool :=
  evs.any (fun e => match e with | Event.withdrawAttempt _ _ _ => true | _ => false)

namespace StationManager

/-- The replenishment loop of `processAllDishes` for the station at
registry slot `i`: walk the dish's ingredient list in order; for each
positive shortfall (required minus the first-matching stock quantity of
the slot-`i` station, re-read each iteration) attempt a backup
withdrawal credited by station name; abort on the first failure. -/
def replenishLoop (i : Nat) : StationManager → List Ingredient → StationManager × Bool × List Event
  | sm, [] => (sm, true, [])
  | sm, ing :: rest =>
    match sm.stations[i]? with
    | none => (sm, true, [])
    | some st =>
      let short := ing.required_quantity - firstStockQty ing.name st.stock
      if 0 < short then
        let res := sm.replenishStationIngredientFromBackup st.name ing.name short
        if res.2 then
          let next := replenishLoop i res.1 rest
          (next.1, next.2.1, Event.withdrawAttempt ing.name short true :: next.2.2)
        else (res.1, false, [Event.withdrawAttempt ing.name short false])
      else replenishLoop i sm rest

/-- One station visit of the `processAllDishes` walk at registry slot
`i`: skip when the dish is not assigned; otherwise query capability;
on a positive query invoke production once (success ends the walk for
this dish, failure just advances); on a negative query run the
replenishment loop and, only if it fully succeeds, invoke production
exactly once. -/
def tryOneStation (B : StationBehavior) (sm : StationManager) (dish : Dish) (i : Nat) :
    StationManager × Bool × List Event :=
  match sm.stations[i]? with
  | none => (sm, false, [])
  | some st =>
    if st.dishes.any (fun d => d.name == dish.name) then
      if B.canProduce st dish.name then
        match B.produce st dish.name with
        | some stock2 =>
          ({sm with stations := updateAt i (fun s => {s with stock := stock2}) sm.stations},
           true, [Event.canQuery true, Event.produceCall true])
        | none => (sm, false, [Event.canQuery true, Event.produceCall false])
      else
        let rep := replenishLoop i sm dish.ingredients
        if rep.2.1 then
          match rep.1.stations[i]? with
          | none => (rep.1, false, Event.canQuery false :: rep.2.2)
          | some st1 =>
            match B.produce st1 dish.name with
            | some stock2 =>
              ({rep.1 with stations := updateAt i (fun s => {s with stock := stock2}) rep.1.stations},
               true, Event.canQuery false :: (rep.2.2 ++ [Event.produceCall true]))
            | none =>
              (rep.1, false, Event.canQuery false :: (rep.2.2 ++ [Event.produceCall false]))
        else (rep.1, false, Event.canQuery false :: rep.2.2)
    else (sm, false, [Event.notAvailable])

/-- The station walk for one dish over the remaining registry slots. -/
def walkFrom (B : StationBehavior) (dish : Dish) : StationManager → List Nat → StationManager × Bool
  | sm, [] => (sm, false)
  | sm, i :: rest =>
    let step := tryOneStation B sm dish i
    if step.2.1 then (step.1, true) else walkFrom B dish step.1 rest

/-- Full station walk for one dish, from registry index 0 (slots are
stable during the walk: no insertion or removal happens while
dispatching). -/
def processDish (B : StationBehavior) (sm : StationManager) (dish : Dish) : StationManager × Bool :=
  walkFrom B dish sm (List.range sm.stations.length)

/-- Drain a dish list in arrival order; return the final state and the
rebuild sequence of unprepared dishes (the `temp_queue`). -/
def processDishes (B : StationBehavior) : StationManager → List Dish → StationManager × List Dish
  | sm, [] => (sm, [])
  | sm, d :: rest =>
    let step := processDish B sm d
    let next := processDishes B step.1 rest
    (next.1, if step.2 then next.2 else d :: next.2)

/-- `StationManager::processAllDishes`: pop every dish off the queue in
order, walk the stations for each, collect the unprepared ones into
`temp_queue` in order, and finally install `temp_queue` as the new
queue. -/
def processAllDishes (B : StationBehavior) (sm : StationManager) : StationManager :=
  let run := processDishes B {sm with dish_queue_ := []} sm.dish_queue_
  {run.1 with dish_queue_ := run.2}

/-- Per-dish resolution flags of one full pass, threading the state. -/
def passFlags (B : StationBehavior) : StationManager → List Dish → List Bool
  | _, [] => []
  | sm, d :: rest => (processDish B sm d).2 :: passFlags B (processDish B sm d).1 rest

end StationManager

/-- Select the entries whose flag is `false`, preserving order. -/
def keepUnresolved : List Dish → List Bool → List Dish
  | [], _ => []
  | _ :: _, [] => []
  | d :: ds, f :: fs => if f then keepUnresolved ds fs else d :: keepUnresolved ds fs

section ListLemmas

variable {α β : Type}

theorem firstIdx?_some_getElem (p : α → Bool) (l : List α) :
    ∀ i, firstIdx? p l = some i → ∃ x, l[i]? = some x ∧ p x = true := by
  induction l with
  | nil => intro i h; simp [firstIdx?] at h
  | cons x xs ih =>
    intro i h
    by_cases hx : p x
    · simp [firstIdx?, hx] at h
      exact h ▸ ⟨x, by simp, hx⟩
    · simp [firstIdx?, hx] at h
      obtain ⟨j, hj, rfl⟩ := h
      obtain ⟨y, hy, hpy⟩ := ih j hj
      exact ⟨y, by simpa using hy, hpy⟩

theorem firstIdx?_eq_none (p : α → Bool) (l : List α) :
    firstIdx? p l = none ↔ ∀ x ∈ l, p x = false := by
  induction l with
  | nil => simp [firstIdx?]
  | cons x xs ih =>
    by_cases hx : p x <;> simp [firstIdx?, hx, ih]

theorem firstIdx?_map (g : α → β) (p : β → Bool) (l : List α) :
    firstIdx? p (l.map g) = firstIdx? (fun x => p (g x)) l := by
  induction l with
  | nil => rfl
  | cons x xs ih => simp [firstIdx?, ih]

theorem updateAt_map (g : α → β) (f : α → α) (hf : ∀ a, g (f a) = g a) :
    ∀ (i : Nat) (l : List α), (updateAt i f l).map g = l.map g := by
  intro i l
  induction l generalizing i with
  | nil => simp [updateAt]
  | cons x xs ih =>
    cases i with
    | zero => simp [updateAt, hf]
    | succ n => simp [updateAt, ih]

theorem length_updateAt (f : α → α) :
    ∀ (i : Nat) (l : List α), (updateAt i f l).length = l.length := by
  intro i l
  induction l generalizing i with
  | nil => simp [updateAt]
  | cons x xs ih =>
    cases i with
    | zero => simp [updateAt]
    | succ n => simp [updateAt, ih]

theorem getElem?_updateAt_self (f : α → α) :
    ∀ (i : Nat) (l : List α), (updateAt i f l)[i]? = (l[i]?).map f := by
  intro i l
  induction l generalizing i with
  | nil => simp [updateAt]
  | cons x xs ih =>
    cases i with
    | zero => simp [updateAt]
    | succ n => simp [updateAt, ih]

theorem getElem?_updateAt_ne (f : α → α) :
    ∀ (i j : Nat), j ≠ i → ∀ (l : List α), (updateAt i f l)[j]? = l[j]? := by
  intro i j hne l
  induction l generalizing i j with
  | nil => simp [updateAt]
  | cons x xs ih =>
    cases i with
    | zero =>
      cases j with
      | zero => exact absurd rfl hne
      | succ m => simp [updateAt]
    | succ n =>
      cases j with
      | zero => simp [updateAt]
      | succ m =>
        simp only [updateAt, List.getElem?_cons_succ]
        exact ih n m (fun h => hne (by simp [h]))

theorem getElem?_eraseIdx :
    ∀ (l : List α) (k j : Nat), (l.eraseIdx k)[j]? = if j < k then l[j]? else l[j + 1]? := by
  intro l
  induction l with
  | nil => intro k j; simp [List.eraseIdx]
  | cons x xs ih =>
    intro k j
    cases k with
    | zero => simp
    | succ k' =>
      cases j with
      | zero => simp
      | succ j' =>
        simp only [List.eraseIdx_cons_succ, List.getElem?_cons_succ, ih k' j',
          Nat.succ_lt_succ_iff]

theorem map_eraseIdx (g : α → β) :
    ∀ (l : List α) (k : Nat), (l.eraseIdx k).map g = (l.map g).eraseIdx k := by
  intro l
  induction l with
  | nil => intro k; simp [List.eraseIdx]
  | cons x xs ih =>
    intro k
    cases k with
    | zero => simp
    | succ k' => simp [ih k']

theorem eraseIdx_firstIdx_eq_erase (n : String) :
    ∀ (ns : List String) (i : Nat), firstIdx? (fun s => s == n) ns = some i →
      ns.eraseIdx i = ns.erase n := by
  intro ns
  induction ns with
  | nil => intro i h; simp [firstIdx?] at h
  | cons x xs ih =>
    intro i h
    by_cases hx : x = n
    · subst hx
      simp [firstIdx?] at h
      simp [← h]
    · have hb : (x == n) = false := by simp [hx]
      simp [firstIdx?, hb] at h
      obtain ⟨j, hj, rfl⟩ := h
      simp [List.erase_cons, hb, ih j hj]

end ListLemmas

section IngredientLemmas

theorem qtyOf_append (n : String) (l1 l2 : List Ingredient) :
    qtyOf n (l1 ++ l2) = qtyOf n l1 + qtyOf n l2 := by
  induction l1 with
  | nil => simp [qtyOf]
  | cons r rest ih => simp [qtyOf, ih]; ring

theorem qtyOf_creditStock (n : String) (ing : Ingredient) :
    ∀ (stock : List Ingredient),
      qtyOf n (creditStock stock ing) = qtyOf n stock + (if ing.name = n then ing.quantity else 0) := by
  intro stock
  induction stock with
  | nil => simp [creditStock, qtyOf]
  | cons r rest ih =>
    by_cases hr : r.name = ing.name
    · simp only [creditStock, if_pos hr, qtyOf]
      by_cases hn : ing.name = n
      · simp [hr, hn]; ring
      · have : r.name = n ↔ False := by
          constructor
          · intro h; exact hn (hr ▸ h)
          · intro h; exact h.elim
        simp [hn, this]
    · simp only [creditStock, if_neg hr, qtyOf, ih]
      ring

theorem qtyOf_creditAll (n : String) (recs : List Ingredient) :
    ∀ (stock : List Ingredient),
      qtyOf n (creditAll stock recs) = qtyOf n stock + qtyOf n recs := by
  induction recs with
  | nil => intro stock; simp [creditAll, qtyOf]
  | cons r rest ih =>
    intro stock
    simp only [creditAll, List.foldl_cons] at *
    rw [ih (creditStock stock r), qtyOf_creditStock]
    simp [qtyOf]
    ring

theorem hasName_creditStock (m : String) (ing : Ingredient) :
    ∀ (stock : List Ingredient),
      hasIngredientName m (creditStock stock ing) =
        (hasIngredientName m stock || (ing.name == m)) := by
  intro stock
  induction stock with
  | nil => simp [creditStock, hasIngredientName]
  | cons r rest ih =>
    simp only [creditStock]
    by_cases hr : r.name = ing.name
    · rw [if_pos hr]
      simp only [hasIngredientName, List.any_cons, hr]
      cases h1 : (ing.name == m) <;>
        cases h2 : rest.any (fun x => x.name == m) <;> simp [h1, h2]
    · rw [if_neg hr]
      simp only [hasIngredientName, List.any_cons] at *
      rw [ih]
      cases h : (r.name == m) <;> simp [h, Bool.or_assoc]

theorem hasName_creditAll (m : String) (recs : List Ingredient) :
    ∀ (stock : List Ingredient),
      hasIngredientName m (creditAll stock recs) =
        (hasIngredientName m stock || hasIngredientName m recs) := by
  induction recs with
  | nil => intro stock; simp [creditAll, hasIngredientName]
  | cons r rest ih =>
    intro stock
    simp only [creditAll, List.foldl_cons] at *
    rw [ih (creditStock stock r), hasName_creditStock]
    simp [hasIngredientName, Bool.or_assoc]

end IngredientLemmas

section PoolLemmas

theorem withdrawFromPool_none_of_find_none (n : String) (q : Int) :
    ∀ pool, poolFind n pool = none → withdrawFromPool n q pool = none := by
  intro pool
  induction pool with
  | nil => intro _; rfl
  | cons r rest ih =>
    intro h
    by_cases hr : r.name = n
    · simp [poolFind, hr] at h
    · simp only [poolFind, if_neg hr] at h
      simp [withdrawFromPool, hr, ih h]

theorem withdrawFromPool_none_of_insufficient (n : String) (q : Int) :
    ∀ pool r, poolFind n pool = some r → r.quantity < q → withdrawFromPool n q pool = none := by
  intro pool
  induction pool with
  | nil => intro r h; simp [poolFind] at h
  | cons x rest ih =>
    intro r h hq
    by_cases hx : x.name = n
    · simp only [poolFind, if_pos hx, Option.some.injEq] at h
      subst h
      simp [withdrawFromPool, hx, not_le.mpr hq]
    · simp only [poolFind, if_neg hx] at h
      simp [withdrawFromPool, hx, ih r h hq]

theorem withdrawFromPool_some_spec (n : String) (q : Int) :
    ∀ pool pool2 p, withdrawFromPool n q pool = some (pool2, p) →
      ∃ pre r post, pool = pre ++ r :: post ∧ (∀ x ∈ pre, x.name ≠ n) ∧ r.name = n ∧
        q ≤ r.quantity ∧ p = r.price ∧
        pool2 = pre ++ (if r.quantity - q = 0 then post
                        else {r with quantity := r.quantity - q} :: post) := by
  intro pool
  induction pool with
  | nil => intro pool2 p h; simp [withdrawFromPool] at h
  | cons x rest ih =>
    intro pool2 p h
    by_cases hx : x.name = n
    · simp only [withdrawFromPool, if_pos hx] at h
      by_cases hq : q ≤ x.quantity
      · rw [if_pos hq] at h
        simp only [Option.some.injEq, Prod.mk.injEq] at h
        exact ⟨[], x, rest, by simp, by simp, hx, hq, h.2.symm, by simp [h.1.symm]⟩
      · simp [hq] at h
    · simp only [withdrawFromPool, if_neg hx, Option.map_eq_some'] at h
      obtain ⟨⟨rest2, p2⟩, hrest, heq⟩ := h
      simp only [Prod.mk.injEq] at heq
      obtain ⟨pre, r, post, hsplit, hpre, hr, hqr, hp, hpool⟩ := ih rest2 p2 hrest
      refine ⟨x :: pre, r, post, by simp [hsplit], ?_, hr, hqr, heq.2 ▸ hp, ?_⟩
      · intro y hy
        rcases List.mem_cons.mp hy with rfl | hy'
        · exact hx
        · exact hpre y hy'
      · rw [← heq.1, hpool]
        simp

theorem qtyOf_withdrawFromPool (n : String) (q : Int) (pool pool2 : List Ingredient) (p : Int)
    (h : withdrawFromPool n q pool = some (pool2, p)) :
    qtyOf n pool2 + q = qtyOf n pool := by
  obtain ⟨pre, r, post, hsplit, _, hr, hqr, _, hpool⟩ := withdrawFromPool_some_spec n q pool pool2 p h
  subst hsplit hpool
  by_cases h0 : r.quantity - q = 0
  · rw [if_pos h0]
    simp [qtyOf_append, qtyOf, hr]
    omega
  · rw [if_neg h0]
    simp [qtyOf_append, qtyOf, hr]
    omega

end PoolLemmas

namespace StationManager

theorem replenish_fail_eq (sm : StationManager) (sname iname : String) (q : Int)
    (h : (sm.replenishStationIngredientFromBackup sname iname q).2 = false) :
    (sm.replenishStationIngredientFromBackup sname iname q).1 = sm := by
  by_cases hq : q ≤ 0
  · simp [replenishStationIngredientFromBackup, hq]
  · cases hidx : firstIdx? (fun st => st.name == sname) sm.stations with
    | none => simp [replenishStationIngredientFromBackup, if_neg hq, hidx]
    | some j =>
      cases hw : withdrawFromPool iname q sm.backup_ingredients_ with
      | none => simp [replenishStationIngredientFromBackup, if_neg hq, hidx, hw]
      | some x =>
        exfalso
        simp [replenishStationIngredientFromBackup, if_neg hq, hidx, hw] at h

theorem replenish_success_char (sm : StationManager) (sname iname : String) (q : Int)
    (h : (sm.replenishStationIngredientFromBackup sname iname q).2 = true) :
    ¬ q ≤ 0 ∧ ∃ j pool p,
      firstIdx? (fun st => st.name == sname) sm.stations = some j ∧
      withdrawFromPool iname q sm.backup_ingredients_ = some (pool, p) ∧
      (sm.replenishStationIngredientFromBackup sname iname q).1 =
        {sm with
          stations := updateAt j
            (fun st => {st with stock := creditStock st.stock ⟨iname, q, 0, p⟩}) sm.stations,
          backup_ingredients_ := pool} := by
  by_cases hq : q ≤ 0
  · exfalso; simp [replenishStationIngredientFromBackup, hq] at h
  · refine ⟨hq, ?_⟩
    cases hidx : firstIdx? (fun st => st.name == sname) sm.stations with
    | none => exfalso; simp [replenishStationIngredientFromBackup, if_neg hq, hidx] at h
    | some j =>
      cases hw : withdrawFromPool iname q sm.backup_ingredients_ with
      | none => exfalso; simp [replenishStationIngredientFromBackup, if_neg hq, hidx, hw] at h
      | some x =>
        exact ⟨j, x.1, x.2, rfl, rfl,
          by simp [replenishStationIngredientFromBackup, if_neg hq, hidx, hw]⟩

end StationManager

/-- A registry satisfies the uniqueness invariant when no two entries
share a name. -/
@[reducible] def namesUnique (sm : StationManager) : Prop :=
  (sm.stations.map KitchenStation.name).Nodup

theorem findFirstStation_eq_none_iff (n : String) (l : List KitchenStation) :
    findFirstStation n l = none ↔ n ∉ l.map KitchenStation.name := by
  unfold findFirstStation
  cases hidx : firstIdx? (fun st => st.name == n) l with
  | none =>
    simp only [iff_true_intro rfl, true_iff]
    intro hmem
    obtain ⟨st, hst, hname⟩ := List.mem_map.mp hmem
    have := (firstIdx?_eq_none _ _).mp hidx st hst
    simp [hname] at this
  | some i =>
    obtain ⟨x, hx, hpx⟩ := firstIdx?_some_getElem _ _ i hidx
    have hmem : n ∈ l.map KitchenStation.name :=
      List.mem_map.mpr ⟨x, List.getElem?_mem hx, by simpa using hpx⟩
    simp [hx, hmem]

theorem findFirstStation_some (n : String) (l : List KitchenStation) (st : KitchenStation)
    (h : findFirstStation n l = some st) : st ∈ l ∧ st.name = n := by
  unfold findFirstStation at h
  cases hidx : firstIdx? (fun s => s.name == n) l with
  | none => rw [hidx] at h; simp at h
  | some i =>
    rw [hidx] at h
    obtain ⟨x, hx, hpx⟩ := firstIdx?_some_getElem _ _ i hidx
    have h' : l[i]? = some st := h
    rw [hx] at h'
    cases h'
    exact ⟨List.getElem?_mem hx, by simpa using hpx⟩

theorem findFirstStation_nodup_mem (n : String) (st : KitchenStation) :
    ∀ l : List KitchenStation, (l.map KitchenStation.name).Nodup → st ∈ l → st.name = n →
      findFirstStation n l = some st := by
  intro l
  induction l with
  | nil => intro _ hmem; exact absurd hmem (List.not_mem_nil st)
  | cons x xs ih =>
    intro hnd hmem hname
    by_cases hx : x.name = n
    · have hstx : st = x := by
        rcases List.mem_cons.mp hmem with rfl | hmem'
        · rfl
        · exfalso
          have hx_not : x.name ∉ xs.map KitchenStation.name := (List.nodup_cons.mp (by simpa using hnd)).1
          exact hx_not (List.mem_map.mpr ⟨st, hmem', hname.trans hx.symm⟩)
      subst hstx
      simp [findFirstStation, firstIdx?, hx]
    · have hst_ne : st ≠ x := fun h => hx (h ▸ hname)
      have hmem' : st ∈ xs := by
        rcases List.mem_cons.mp hmem with rfl | hmem'
        · exact absurd rfl hst_ne
        · exact hmem'
      have hrec := ih (List.nodup_cons.mp (by simpa using hnd)).2 hmem' hname
      unfold findFirstStation at hrec ⊢
      cases hidx : firstIdx? (fun s => s.name == n) xs with
      | none => rw [hidx] at hrec; simp at hrec
      | some j =>
        rw [hidx] at hrec
        have hb : (x.name == n) = false := by simp [hx]
        simp [firstIdx?, hb, hidx]
        simpa using hrec

/-- Sample station and manager states used by the concrete witnesses. -/
def grill0 : KitchenStation :=
  ⟨"Grill", [], [⟨"Chicken", 0, 0, 0⟩]⟩

def sm0 : StationManager :=
  ⟨[grill0], [], [⟨"Chicken", 5, 0, 2⟩]⟩

/-- C4: `replenishStationIngredientFromBackup(station, name, qty)` returns
`false` when `qty ≤ 0`, when the named ingredient is absent from the
backup pool, or when the (first matching) pool record's quantity is
below `qty`; every failure leaves the whole manager state — backup pool
and all station stocks — unchanged; on success the matched pool record
is decremented by exactly `qty` and erased exactly when its quantity
reaches zero. -/
theorem replenishBackup_spec (sm : StationManager) (sname iname : String) (q : Int) :
    (q ≤ 0 → sm.replenishStationIngredientFromBackup sname iname q = (sm, false))
    ∧ (poolFind iname sm.backup_ingredients_ = none →
        sm.replenishStationIngredientFromBackup sname iname q = (sm, false))
    ∧ (∀ r, poolFind iname sm.backup_ingredients_ = some r → r.quantity < q →
        sm.replenishStationIngredientFromBackup sname iname q = (sm, false))
    ∧ ((sm.replenishStationIngredientFromBackup sname iname q).2 = false →
        (sm.replenishStationIngredientFromBackup sname iname q).1 = sm)
    ∧ ((sm.replenishStationIngredientFromBackup sname iname q).2 = true →
        ∃ pre r post,
          sm.backup_ingredients_ = pre ++ r :: post ∧ (∀ x ∈ pre, x.name ≠ iname) ∧
          r.name = iname ∧ q ≤ r.quantity ∧
          (sm.replenishStationIngredientFromBackup sname iname q).1.backup_ingredients_ =
            pre ++ (if r.quantity - q = 0 then post
                    else {r with quantity := r.quantity - q} :: post)) := by
  refine ⟨?_, ?_, ?_, ?_, ?_⟩
  · intro hq
    simp [StationManager.replenishStationIngredientFromBackup, hq]
  · intro hpf
    by_cases hq : q ≤ 0
    · simp [StationManager.replenishStationIngredientFromBackup, hq]
    · cases hidx : firstIdx? (fun st => st.name == sname) sm.stations with
      | none => simp [StationManager.replenishStationIngredientFromBackup, if_neg hq, hidx]
      | some j =>
        simp [StationManager.replenishStationIngredientFromBackup, if_neg hq, hidx,
          withdrawFromPool_none_of_find_none iname q _ hpf]
  · intro r hpf hlt
    by_cases hq : q ≤ 0
    · simp [StationManager.replenishStationIngredientFromBackup, hq]
    · cases hidx : firstIdx? (fun st => st.name == sname) sm.stations with
      | none => simp [StationManager.replenishStationIngredientFromBackup, if_neg hq, hidx]
      | some j =>
        simp [StationManager.replenishStationIngredientFromBackup, if_neg hq, hidx,
          withdrawFromPool_none_of_insufficient iname q _ r hpf hlt]
  · exact StationManager.replenish_fail_eq sm sname iname q
  · intro h
    obtain ⟨hq, j, pool, p, hidx, hw, heq⟩ := StationManager.replenish_success_char sm sname iname q h
    obtain ⟨pre, r, post, hsplit, hpre, hr, hqr, _, hpool⟩ :=
      withdrawFromPool_some_spec iname q _ pool p hw
    exact ⟨pre, r, post, hsplit, hpre, hr, hqr, by rw [heq, hpool]⟩

/-- Witness for C4 at concrete states: a non-positive quantity, a missing
pool ingredient, an insufficient pool record, the no-change consequence,
and the success-shape consequence, all obtained from the theorem. -/
theorem replenishBackup_spec_witness :
    sm0.replenishStationIngredientFromBackup "Grill" "Chicken" 0 = (sm0, false)
    ∧ sm0.replenishStationIngredientFromBackup "Grill" "Beef" 3 = (sm0, false)
    ∧ sm0.replenishStationIngredientFromBackup "Grill" "Chicken" 9 = (sm0, false)
    ∧ (sm0.replenishStationIngredientFromBackup "Grill" "Chicken" 9).1 = sm0
    ∧ (∃ pre r post,
        sm0.backup_ingredients_ = pre ++ r :: post ∧ (∀ x ∈ pre, x.name ≠ "Chicken") ∧
        r.name = "Chicken" ∧ (3 : Int) ≤ r.quantity ∧
        (sm0.replenishStationIngredientFromBackup "Grill" "Chicken" 3).1.backup_ingredients_ =
          pre ++ (if r.quantity - 3 = 0 then post
                  else {r with quantity := r.quantity - 3} :: post)) :=
  ⟨(replenishBackup_spec sm0 "Grill" "Chicken" 0).1 (by decide),
   (replenishBackup_spec sm0 "Grill" "Beef" 3).2.1 (by decide),
   (replenishBackup_spec sm0 "Grill" "Chicken" 9).2.2.1 ⟨"Chicken", 5, 0, 2⟩ (by decide) (by decide),
   (replenishBackup_spec sm0 "Grill" "Chicken" 9).2.2.2.1 (by decide),
   (replenishBackup_spec sm0 "Grill" "Chicken" 3).2.2.2.2 (by decide)⟩

/-- C5: a successful backup replenishment is zero-sum: the pool's total
quantity for the ingredient drops by exactly `q`, and the (first
matching) station's stock total for that ingredient rises by exactly
`q`. -/
theorem replenishBackup_zero_sum (sm : StationManager) (sname iname : String) (q : Int)
    (h : (sm.replenishStationIngredientFromBackup sname iname q).2 = true) :
    qtyOf iname (sm.replenishStationIngredientFromBackup sname iname q).1.backup_ingredients_ + q
      = qtyOf iname sm.backup_ingredients_
    ∧ ∀ st st', sm.findStation sname = some st →
        (sm.replenishStationIngredientFromBackup sname iname q).1.findStation sname = some st' →
        qtyOf iname st'.stock = qtyOf iname st.stock + q := by
  obtain ⟨hq, j, pool, p, hidx, hw, heq⟩ := StationManager.replenish_success_char sm sname iname q h
  constructor
  · rw [heq]
    exact qtyOf_withdrawFromPool iname q _ pool p hw
  · intro st st' hfind hfind'
    have hst : sm.stations[j]? = some st := by
      unfold StationManager.findStation findFirstStation at hfind
      rw [hidx] at hfind
      exact hfind
    have hmap : (updateAt j
        (fun s : KitchenStation => {s with stock := creditStock s.stock ⟨iname, q, 0, p⟩})
        sm.stations).map KitchenStation.name = sm.stations.map KitchenStation.name :=
      updateAt_map KitchenStation.name
        (fun s : KitchenStation => {s with stock := creditStock s.stock ⟨iname, q, 0, p⟩})
        (fun _ => rfl) j sm.stations
    have h1 := firstIdx?_map KitchenStation.name (fun s => s == sname)
      (updateAt j (fun s : KitchenStation => {s with stock := creditStock s.stock ⟨iname, q, 0, p⟩})
        sm.stations)
    have h2 := firstIdx?_map KitchenStation.name (fun s => s == sname) sm.stations
    have hidx2 : firstIdx? (fun st : KitchenStation => st.name == sname)
        (updateAt j (fun s : KitchenStation => {s with stock := creditStock s.stock ⟨iname, q, 0, p⟩})
          sm.stations) = some j := by
      rw [← h1, hmap, h2, hidx]
    have hst' : st' = {st with stock := creditStock st.stock ⟨iname, q, 0, p⟩} := by
      rw [heq] at hfind'
      unfold StationManager.findStation findFirstStation at hfind'
      rw [hidx2] at hfind'
      have hfind2 : (updateAt j
          (fun s : KitchenStation => {s with stock := creditStock s.stock ⟨iname, q, 0, p⟩})
          sm.stations)[j]? = some st' := hfind'
      rw [getElem?_updateAt_self, hst] at hfind2
      simpa using hfind2.symm
    rw [hst']
    simp [qtyOf_creditStock]

/-- Witness for C5 at a concrete success: withdrawing 3 Chicken from a
5-Chicken pool for the Grill station. -/
theorem replenishBackup_zero_sum_witness :
    qtyOf "Chicken" (sm0.replenishStationIngredientFromBackup "Grill" "Chicken" 3).1.backup_ingredients_
        + 3 = qtyOf "Chicken" sm0.backup_ingredients_
    ∧ ∀ st st', sm0.findStation "Grill" = some st →
        (sm0.replenishStationIngredientFromBackup "Grill" "Chicken" 3).1.findStation "Grill" = some st' →
        qtyOf "Chicken" st'.stock = qtyOf "Chicken" st.stock + 3 :=
  replenishBackup_zero_sum sm0 "Grill" "Chicken" 3 (by decide)

theorem firstIdx_none_of_findStation_none (sm : StationManager) (n : String)
    (h : sm.findStation n = none) :
    firstIdx? (fun st => st.name == n) sm.stations = none := by
  cases hidx : firstIdx? (fun st => st.name == n) sm.stations with
  | none => rfl
  | some i =>
    exfalso
    obtain ⟨x, hx, _⟩ := firstIdx?_some_getElem _ _ i hidx
    unfold StationManager.findStation findFirstStation at h
    rw [hidx] at h
    have h' : sm.stations[i]? = none := h
    rw [hx] at h'
    exact Option.noConfusion h'

theorem move_none (sm : StationManager) (n : String)
    (h : firstIdx? (fun st => st.name == n) sm.stations = none) :
    sm.moveStationToFront n = (sm, false) := by
  simp [StationManager.moveStationToFront, h]

theorem move_head (sm : StationManager) (n : String) (hd : KitchenStation)
    (tl : List KitchenStation) (hs : sm.stations = hd :: tl) (hb : hd.name = n) :
    sm.moveStationToFront n = (sm, true) := by
  simp [StationManager.moveStationToFront, hs, firstIdx?, hb]

theorem move_shift (sm : StationManager) (n : String) (i : Nat) (st : KitchenStation)
    (hidx : firstIdx? (fun s => s.name == n) sm.stations = some i) (hpos : 0 < i)
    (hget : sm.stations[i]? = some st) :
    sm.moveStationToFront n = ({sm with stations := st :: sm.stations.eraseIdx i}, true) := by
  cases hs : sm.stations with
  | nil => rw [hs] at hget; simp at hget
  | cons hd tl =>
    rw [hs] at hidx hget
    have hb : hd.name ≠ n := by
      intro hb
      simp [firstIdx?, hb] at hidx
      omega
    simp [StationManager.moveStationToFront, hs, hidx, hget, hb]

/-- C7: `moveStationToFront(name)` fails without change when the name is
absent; succeeds without change when the first matching station is
already at index 0; otherwise removes the first matching station from
its position `i > 0` and reinserts the very same station value at
index 0 (its dishes and stock untouched). -/
theorem moveStationToFront_spec (sm : StationManager) (n : String) :
    (sm.findStation n = none → sm.moveStationToFront n = (sm, false))
    ∧ (firstIdx? (fun st => st.name == n) sm.stations = some 0 →
        sm.moveStationToFront n = (sm, true))
    ∧ (∀ i st, firstIdx? (fun st => st.name == n) sm.stations = some i → 0 < i →
        sm.stations[i]? = some st →
        sm.moveStationToFront n = ({sm with stations := st :: sm.stations.eraseIdx i}, true)) := by
  refine ⟨?_, ?_, ?_⟩
  · intro h
    exact move_none sm n (firstIdx_none_of_findStation_none sm n h)
  · intro hidx
    obtain ⟨st, hget, hp⟩ := firstIdx?_some_getElem _ _ 0 hidx
    cases hs : sm.stations with
    | nil => rw [hs] at hget; simp at hget
    | cons hd tl =>
      have hhd : hd = st := by rw [hs] at hget; simpa using hget
      exact move_head sm n hd tl hs (by simpa [hhd] using hp)
  · intro i st hidx hpos hget
    exact move_shift sm n i st hidx hpos hget

/-- Sample two-station registry used by the move-to-front witnesses. -/
def stA0 : KitchenStation := ⟨"A", [], []⟩

def stB0 : KitchenStation := ⟨"B", [], []⟩

def smMove : StationManager := ⟨[stA0, stB0], [], []⟩

/-- Witness for C7: an absent name fails without change, the front
station is a no-op success, and a rear station is moved to index 0
unchanged. -/
theorem moveStationToFront_spec_witness :
    smMove.moveStationToFront "C" = (smMove, false)
    ∧ smMove.moveStationToFront "A" = (smMove, true)
    ∧ smMove.moveStationToFront "B" =
        ({smMove with stations := stB0 :: smMove.stations.eraseIdx 1}, true) :=
  ⟨(moveStationToFront_spec smMove "C").1 (by decide),
   (moveStationToFront_spec smMove "A").2.1 (by decide),
   (moveStationToFront_spec smMove "B").2.2 1 stB0 (by decide) (by decide) (by decide)⟩

/-- C8: `moveStationToFront` is idempotent on the registry: calling it
twice in succession yields the same manager state as calling it once. -/
theorem moveStationToFront_idem (sm : StationManager) (n : String) :
    ((sm.moveStationToFront n).1.moveStationToFront n).1 = (sm.moveStationToFront n).1 := by
  cases hidx : firstIdx? (fun st => st.name == n) sm.stations with
  | none =>
    have h1 := move_none sm n hidx
    rw [h1]
    simp [move_none sm n hidx]
  | some i =>
    obtain ⟨st, hget, hp⟩ := firstIdx?_some_getElem _ _ i hidx
    have hstname : st.name = n := by simpa using hp
    by_cases hzero : i = 0
    · subst hzero
      cases hs : sm.stations with
      | nil => rw [hs] at hget; simp at hget
      | cons hd tl =>
        have hhd : hd = st := by rw [hs] at hget; simpa using hget
        have h1 := move_head sm n hd tl hs (hhd ▸ hstname)
        simp [h1]
    · have hpos : 0 < i := Nat.pos_of_ne_zero hzero
      have h1 := move_shift sm n i st hidx hpos hget
      have h2 := move_head {sm with stations := st :: sm.stations.eraseIdx i} n st
        (sm.stations.eraseIdx i) rfl hstname
      simp [h1, h2]

/-- The registry operations quantified over by the uniqueness claim. -/
inductive RegistryOp where
  | add : KitchenStation → RegistryOp
  | remove : String → RegistryOp
  | merge : String → String → RegistryOp
  deriving DecidableEq

/-- Apply one registry operation (discarding the boolean result, as the
claim only quantifies over the sequence of calls). -/
def applyOp (sm : StationManager) : RegistryOp → StationManager
  | RegistryOp.add st => (sm.addStation st).1
  | RegistryOp.remove n => (sm.removeStation n).1
  | RegistryOp.merge n1 n2 => (sm.mergeStations n1 n2).1

def applyOps (sm : StationManager) : List RegistryOp → StationManager
  | [] => sm
  | op :: rest => applyOps (applyOp sm op) rest

/-- The empty manager (default-constructed `StationManager`). -/
def emptySM : StationManager := ⟨[], [], []⟩

/-- Every `add` in the sequence carries a name not registered at the
moment it runs (the amendment forced by the counterexample: `addStation`
itself performs no duplicate check). -/
def freshAdds (sm : StationManager) : List RegistryOp → Bool
  | [] => true
  | op :: rest =>
    (match op with
     | RegistryOp.add st => (sm.findStation st.name).isNone
     | _ => true) && freshAdds (applyOp sm op) rest

/-- Counterexample to C3 as stated: `addStation` appends without any
name check, so adding the station named "A" twice leaves two entries
sharing a name. -/
theorem registry_uniqueness_cex :
    ¬ namesUnique (applyOps emptySM [RegistryOp.add stA0, RegistryOp.add stA0]) := by
  decide

theorem namesUnique_removeStation (sm : StationManager) (n : String)
    (h : namesUnique sm) : namesUnique (sm.removeStation n).1 := by
  unfold StationManager.removeStation
  cases hidx : firstIdx? (fun st => st.name == n) sm.stations with
  | none => exact h
  | some i =>
    unfold namesUnique
    simp only
    rw [map_eraseIdx]
    exact h.sublist (List.eraseIdx_sublist _ i)

theorem namesUnique_applyOp (sm : StationManager) (op : RegistryOp)
    (h : namesUnique sm)
    (hok : (match op with
            | RegistryOp.add st => (sm.findStation st.name).isNone
            | _ => true) = true) :
    namesUnique (applyOp sm op) := by
  cases op with
  | add st =>
    have hok' : (sm.findStation st.name).isNone = true := hok
    have hnone : sm.findStation st.name = none := Option.isNone_iff_eq_none.mp hok'
    have hnot : st.name ∉ sm.stations.map KitchenStation.name :=
      (findFirstStation_eq_none_iff st.name sm.stations).mp hnone
    show namesUnique (sm.addStation st).1
    unfold namesUnique StationManager.addStation
    simp only [List.map_append, List.map_cons, List.map_nil]
    rw [List.nodup_append]
    exact ⟨h, List.nodup_singleton _, fun a ha hb => hnot (List.mem_singleton.mp hb ▸ ha)⟩
  | remove n => exact namesUnique_removeStation sm n h
  | merge n1 n2 =>
    show namesUnique (sm.mergeStations n1 n2).1
    cases hidx : firstIdx? (fun st => st.name == n1) sm.stations with
    | none => simpa [StationManager.mergeStations, hidx] using h
    | some j =>
      cases hfs : sm.findStation n2 with
      | none => simpa [StationManager.mergeStations, hidx, hfs] using h
      | some s2 =>
        have hstep : (sm.mergeStations n1 n2).1 =
            (StationManager.removeStation
              {sm with stations := updateAt j (mergeInto s2) sm.stations} n2).1 := by
          simp [StationManager.mergeStations, hidx, hfs]
        rw [hstep]
        apply namesUnique_removeStation
        unfold namesUnique
        simp only
        rw [updateAt_map KitchenStation.name (mergeInto s2) (fun _ => rfl) j sm.stations]
        exact h

/-- C3, amended: after any sequence of `addStation` / `removeStation` /
`mergeStations` starting from the empty registry, in which every
`addStation` call uses a name not registered at that moment, no two
registered stations share a name.  (Unrestricted `addStation` breaks the
invariant — see the counterexample.) -/
theorem registry_uniqueness_amended (ops : List RegistryOp)
    (h : freshAdds emptySM ops = true) :
    namesUnique (applyOps emptySM ops) := by
  have general : ∀ (ops : List RegistryOp) (sm : StationManager),
      namesUnique sm → freshAdds sm ops = true → namesUnique (applyOps sm ops) := by
    intro ops
    induction ops with
    | nil => intro sm hu _; exact hu
    | cons op rest ih =>
      intro sm hu hok
      unfold freshAdds at hok
      rw [Bool.and_eq_true] at hok
      exact ih (applyOp sm op) (namesUnique_applyOp sm op hu hok.1) hok.2
  exact general ops emptySM (by simp [namesUnique, emptySM]) h

/-- Witness for the amended C3: a concrete sequence with fresh adds
(including re-adding a name B after a merge removed it) keeps all
registry names distinct. -/
theorem registry_uniqueness_amended_witness :
    freshAdds emptySM [RegistryOp.add stA0, RegistryOp.add stB0,
      RegistryOp.merge "A" "B", RegistryOp.add stB0] = true
    ∧ namesUnique (applyOps emptySM [RegistryOp.add stA0, RegistryOp.add stB0,
        RegistryOp.merge "A" "B", RegistryOp.add stB0]) :=
  ⟨by decide, registry_uniqueness_amended _ (by decide)⟩

theorem findFirstStation_char (n : String) (l : List KitchenStation) (st : KitchenStation)
    (h : findFirstStation n l = some st) :
    ∃ i, firstIdx? (fun s => s.name == n) l = some i ∧ l[i]? = some st := by
  unfold findFirstStation at h
  cases hidx : firstIdx? (fun s => s.name == n) l with
  | none => rw [hidx] at h; exact Option.noConfusion h
  | some i =>
    rw [hidx] at h
    exact ⟨i, rfl, h⟩

theorem firstIdx?_name_updateAt (n : String) (j : Nat) (f : KitchenStation → KitchenStation)
    (hf : ∀ st, (f st).name = st.name) (l : List KitchenStation) :
    firstIdx? (fun st => st.name == n) (updateAt j f l) = firstIdx? (fun st => st.name == n) l := by
  have h1 := firstIdx?_map KitchenStation.name (fun s => s == n) (updateAt j f l)
  have h2 := firstIdx?_map KitchenStation.name (fun s => s == n) l
  rw [← h1, updateAt_map KitchenStation.name f hf j l, h2]

theorem names_eraseIdx_of_firstIdx (n : String) (l : List KitchenStation) (k : Nat)
    (hidx : firstIdx? (fun st => st.name == n) l = some k) :
    (l.eraseIdx k).map KitchenStation.name = (l.map KitchenStation.name).erase n := by
  rw [map_eraseIdx]
  apply eraseIdx_firstIdx_eq_erase
  rw [firstIdx?_map]
  exact hidx

theorem mergeStations_result (sm : StationManager) (n1 n2 : String) (j k : Nat)
    (s2 : KitchenStation)
    (hidx1 : firstIdx? (fun st => st.name == n1) sm.stations = some j)
    (h2 : sm.findStation n2 = some s2)
    (hidx2 : firstIdx? (fun st => st.name == n2) sm.stations = some k) :
    sm.mergeStations n1 n2 =
      ({sm with stations := (updateAt j (mergeInto s2) sm.stations).eraseIdx k}, true) := by
  have hidx2' : firstIdx? (fun st => st.name == n2) (updateAt j (mergeInto s2) sm.stations)
      = some k := by
    rw [firstIdx?_name_updateAt n2 j (mergeInto s2) (fun _ => rfl) sm.stations]
    exact hidx2
  simp [StationManager.mergeStations, hidx1, h2, StationManager.removeStation, hidx2']

/-- C6: `mergeStations(A, B)` fails — returning `false` with the manager
unchanged — when either name is absent from the registry.  On two
distinct registered names (under the registry uniqueness invariant) it
succeeds; A's entry (still found under its name) holds the multiset
union of both pre-merge dish lists and, for every ingredient name, the
sum of both pre-merge stock quantities (with records present exactly
for names either station held); B is gone from the registry and every
other entry keeps its relative position (the name sequence is the old
one with the first occurrence of B deleted, A not relocated). -/
theorem mergeStations_spec (sm : StationManager) (n1 n2 : String) :
    (sm.findStation n1 = none → sm.mergeStations n1 n2 = (sm, false))
    ∧ (sm.findStation n2 = none → sm.mergeStations n1 n2 = (sm, false))
    ∧ (∀ s1 s2 : KitchenStation, namesUnique sm → n1 ≠ n2 →
        sm.findStation n1 = some s1 → sm.findStation n2 = some s2 →
        (sm.mergeStations n1 n2).2 = true
        ∧ (sm.mergeStations n1 n2).1.findStation n1 = some (mergeInto s2 s1)
        ∧ ((mergeInto s2 s1).dishes : Multiset Dish)
            = (s1.dishes : Multiset Dish) + (s2.dishes : Multiset Dish)
        ∧ (∀ n, qtyOf n (mergeInto s2 s1).stock = qtyOf n s1.stock + qtyOf n s2.stock)
        ∧ (∀ n, hasIngredientName n (mergeInto s2 s1).stock
              = (hasIngredientName n s1.stock || hasIngredientName n s2.stock))
        ∧ (sm.mergeStations n1 n2).1.findStation n2 = none
        ∧ (sm.mergeStations n1 n2).1.stations.map KitchenStation.name
            = (sm.stations.map KitchenStation.name).erase n2) := by
  refine ⟨?_, ?_, ?_⟩
  · intro h1
    have hidx1 : firstIdx? (fun st => st.name == n1) sm.stations = none :=
      firstIdx_none_of_findStation_none sm n1 h1
    cases hfs2 : sm.findStation n2 with
    | none => simp [StationManager.mergeStations, hidx1, hfs2]
    | some s2 => simp [StationManager.mergeStations, hidx1, hfs2]
  · intro h2
    cases hidx1 : firstIdx? (fun st => st.name == n1) sm.stations with
    | none => simp [StationManager.mergeStations, hidx1, h2]
    | some j => simp [StationManager.mergeStations, hidx1, h2]
  · intro s1 s2 hu hne h1 h2
    obtain ⟨j, hidx1, hgetj⟩ := findFirstStation_char n1 sm.stations s1 h1
    obtain ⟨k, hidx2, hgetk⟩ := findFirstStation_char n2 sm.stations s2 h2
    have hres := mergeStations_result sm n1 n2 j k s2 hidx1 h2 hidx2
    have hs1name : s1.name = n1 := (findFirstStation_some n1 sm.stations s1 h1).2
    have hs2name : s2.name = n2 := (findFirstStation_some n2 sm.stations s2 h2).2
    have hidx2' : firstIdx? (fun st => st.name == n2) (updateAt j (mergeInto s2) sm.stations)
        = some k := by
      rw [firstIdx?_name_updateAt n2 j (mergeInto s2) (fun _ => rfl) sm.stations]
      exact hidx2
    have hnames : ((updateAt j (mergeInto s2) sm.stations).eraseIdx k).map KitchenStation.name
        = (sm.stations.map KitchenStation.name).erase n2 := by
      rw [names_eraseIdx_of_firstIdx n2 _ k hidx2']
      rw [updateAt_map KitchenStation.name (mergeInto s2) (fun _ => rfl) j sm.stations]
    have hjk : j ≠ k := by
      intro hEq
      rw [hEq, hgetk] at hgetj
      cases hgetj
      exact hne (hs1name ▸ hs2name ▸ rfl)
    have hLj : (updateAt j (mergeInto s2) sm.stations)[j]? = some (mergeInto s2 s1) := by
      rw [getElem?_updateAt_self, hgetj]
      rfl
    have hmem : mergeInto s2 s1 ∈ (updateAt j (mergeInto s2) sm.stations).eraseIdx k := by
      rcases Nat.lt_or_ge j k with hlt | hge
      · exact List.getElem?_mem (by rw [getElem?_eraseIdx, if_pos hlt]; exact hLj)
      · have hgt : k < j := Nat.lt_of_le_of_ne hge (Ne.symm hjk)
        apply List.getElem?_mem (n := j - 1)
        rw [getElem?_eraseIdx, if_neg (by omega)]
        have hj1 : j - 1 + 1 = j := by omega
        rw [hj1]
        exact hLj
    have hnodup : (((updateAt j (mergeInto s2) sm.stations).eraseIdx k).map
        KitchenStation.name).Nodup := by
      rw [hnames]
      exact hu.erase n2
    refine ⟨by rw [hres], ?_, (Multiset.coe_add _ _).symm,
      fun n => by simpa [mergeInto] using qtyOf_creditAll n s2.stock s1.stock,
      fun n => by simpa [mergeInto] using hasName_creditAll n s2.stock s1.stock,
      ?_, ?_⟩
    · rw [hres]
      exact findFirstStation_nodup_mem n1 (mergeInto s2 s1) _ hnodup hmem hs1name
    · rw [hres]
      have hnot : n2 ∉ ((updateAt j (mergeInto s2) sm.stations).eraseIdx k).map
          KitchenStation.name := by
        rw [hnames]
        exact hu.not_mem_erase
      exact (findFirstStation_eq_none_iff n2 _).mpr hnot
    · rw [hres]
      exact hnames

/-- Concrete stations used by the merge witnesses. -/
def dishSoup : Dish := ⟨"Soup", [⟨"Water", 0, 1, 0⟩]⟩

def stMergeA : KitchenStation := ⟨"A", [dishSoup], [⟨"Salt", 2, 0, 1⟩]⟩

def stMergeB : KitchenStation := ⟨"B", [dishSoup], [⟨"Salt", 3, 0, 1⟩, ⟨"Pepper", 1, 0, 2⟩]⟩

def smMerge : StationManager := ⟨[stMergeA, stMergeB], [], []⟩

/-- Witness for C6 at a concrete two-station registry: both failure
cases (first name absent, second name absent) leave the manager
unchanged with `false`, and the success case merges "B" into "A". -/
theorem mergeStations_spec_witness :
    smMerge.mergeStations "Z" "B" = (smMerge, false)
    ∧ smMerge.mergeStations "A" "Z" = (smMerge, false)
    ∧ (smMerge.mergeStations "A" "B").2 = true
    ∧ (smMerge.mergeStations "A" "B").1.findStation "A" = some (mergeInto stMergeB stMergeA)
    ∧ (∀ n, qtyOf n (mergeInto stMergeB stMergeA).stock
        = qtyOf n stMergeA.stock + qtyOf n stMergeB.stock)
    ∧ (smMerge.mergeStations "A" "B").1.findStation "B" = none :=
  ⟨(mergeStations_spec smMerge "Z" "B").1 (by decide),
   (mergeStations_spec smMerge "A" "Z").2.1 (by decide),
   ((mergeStations_spec smMerge "A" "B").2.2 stMergeA stMergeB (by decide) (by decide)
      (by decide) (by decide)).1,
   ((mergeStations_spec smMerge "A" "B").2.2 stMergeA stMergeB (by decide) (by decide)
      (by decide) (by decide)).2.1,
   ((mergeStations_spec smMerge "A" "B").2.2 stMergeA stMergeB (by decide) (by decide)
      (by decide) (by decide)).2.2.2.1,
   ((mergeStations_spec smMerge "A" "B").2.2 stMergeA stMergeB (by decide) (by decide)
      (by decide) (by decide)).2.2.2.2.2.1⟩

/-- C10: merging a (uniquely named) registered station with itself
succeeds and removes it from the registry entirely. -/
theorem mergeStations_self (sm : StationManager) (X : String) (s : KitchenStation)
    (hu : namesUnique sm) (h : sm.findStation X = some s) :
    (sm.mergeStations X X).2 = true
    ∧ (sm.mergeStations X X).1.findStation X = none
    ∧ (sm.mergeStations X X).1.stations.map KitchenStation.name
        = (sm.stations.map KitchenStation.name).erase X := by
  obtain ⟨j, hidx, hget⟩ := findFirstStation_char X sm.stations s h
  have hres := mergeStations_result sm X X j j s hidx h hidx
  have hidx' : firstIdx? (fun st => st.name == X) (updateAt j (mergeInto s) sm.stations)
      = some j := by
    rw [firstIdx?_name_updateAt X j (mergeInto s) (fun _ => rfl) sm.stations]
    exact hidx
  have hnames : ((updateAt j (mergeInto s) sm.stations).eraseIdx j).map KitchenStation.name
      = (sm.stations.map KitchenStation.name).erase X := by
    rw [names_eraseIdx_of_firstIdx X _ j hidx']
    rw [updateAt_map KitchenStation.name (mergeInto s) (fun _ => rfl) j sm.stations]
  refine ⟨by rw [hres], ?_, ?_⟩
  · rw [hres]
    have hnot : X ∉ ((updateAt j (mergeInto s) sm.stations).eraseIdx j).map
        KitchenStation.name := by
      rw [hnames]
      exact hu.not_mem_erase
    exact (findFirstStation_eq_none_iff X _).mpr hnot
  · rw [hres]
    exact hnames

/-- Witness for C10: merging station "A" with itself on a two-station
registry unregisters it. -/
theorem mergeStations_self_witness :
    (smMerge.mergeStations "A" "A").2 = true
    ∧ (smMerge.mergeStations "A" "A").1.findStation "A" = none
    ∧ (smMerge.mergeStations "A" "A").1.stations.map KitchenStation.name
        = (smMerge.stations.map KitchenStation.name).erase "A" :=
  mergeStations_self smMerge "A" stMergeA (by decide) (by decide)

theorem replenish_stations_length (sm : StationManager) (sname iname : String) (q : Int) :
    (sm.replenishStationIngredientFromBackup sname iname q).1.stations.length
      = sm.stations.length := by
  by_cases hq : q ≤ 0
  · simp [StationManager.replenishStationIngredientFromBackup, hq]
  · cases hidx : firstIdx? (fun st => st.name == sname) sm.stations with
    | none => simp [StationManager.replenishStationIngredientFromBackup, if_neg hq, hidx]
    | some j =>
      cases hw : withdrawFromPool iname q sm.backup_ingredients_ with
      | none => simp [StationManager.replenishStationIngredientFromBackup, if_neg hq, hidx, hw]
      | some x =>
        simp [StationManager.replenishStationIngredientFromBackup, if_neg hq, hidx, hw,
          length_updateAt]

theorem replenishLoop_stations_length (i : Nat) :
    ∀ (l : List Ingredient) (sm : StationManager),
      (StationManager.replenishLoop i sm l).1.stations.length = sm.stations.length := by
  intro l
  induction l with
  | nil => intro sm; rfl
  | cons ing rest ih =>
    intro sm
    cases hst : sm.stations[i]? with
    | none => simp [StationManager.replenishLoop, hst]
    | some st =>
      by_cases hpos : 0 < ing.required_quantity - firstStockQty ing.name st.stock
      · cases hres : sm.replenishStationIngredientFromBackup st.name ing.name
            (ing.required_quantity - firstStockQty ing.name st.stock) with
        | mk sm2 ok =>
          cases ok with
          | false =>
            have := replenish_stations_length sm st.name ing.name
              (ing.required_quantity - firstStockQty ing.name st.stock)
            rw [hres] at this
            simp [StationManager.replenishLoop, hst, hpos, hres, this]
          | true =>
            have := replenish_stations_length sm st.name ing.name
              (ing.required_quantity - firstStockQty ing.name st.stock)
            rw [hres] at this
            simp [StationManager.replenishLoop, hst, hpos, hres, ih sm2, this]
      · simp [StationManager.replenishLoop, hst, hpos, ih sm]

theorem replenishLoop_append (i : Nat) (pre post : List Ingredient) :
    ∀ sm : StationManager,
      StationManager.replenishLoop i sm (pre ++ post) =
        (if (StationManager.replenishLoop i sm pre).2.1 then
          ((StationManager.replenishLoop i (StationManager.replenishLoop i sm pre).1 post).1,
           (StationManager.replenishLoop i (StationManager.replenishLoop i sm pre).1 post).2.1,
           (StationManager.replenishLoop i sm pre).2.2 ++
             (StationManager.replenishLoop i (StationManager.replenishLoop i sm pre).1 post).2.2)
         else StationManager.replenishLoop i sm pre) := by
  induction pre with
  | nil =>
    intro sm
    simp [StationManager.replenishLoop]
  | cons ing rest ih =>
    intro sm
    cases hst : sm.stations[i]? with
    | none =>
      cases post with
      | nil => simp [StationManager.replenishLoop, hst]
      | cons p ps => simp [StationManager.replenishLoop, hst]
    | some st =>
      by_cases hpos : 0 < ing.required_quantity - firstStockQty ing.name st.stock
      · cases hres : sm.replenishStationIngredientFromBackup st.name ing.name
            (ing.required_quantity - firstStockQty ing.name st.stock) with
        | mk sm2 ok =>
          cases ok with
          | false => simp [StationManager.replenishLoop, hst, hpos, hres]
          | true =>
            simp only [List.cons_append, StationManager.replenishLoop, hst, hpos, if_pos,
              reduceIte, hres, List.append_eq]
            rw [ih sm2]
            cases hna : (StationManager.replenishLoop i sm2 rest).2.1 <;> simp [hna]
      · simp only [List.cons_append, StationManager.replenishLoop, hst, hpos, reduceIte]
        exact ih sm

theorem replenishLoop_prefix_fail (i : Nat) (pre : List Ingredient) (ing : Ingredient)
    (rest : List Ingredient) (sm sm1 : StationManager) (evs1 : List Event)
    (st1 : KitchenStation) (s : Int)
    (hpre : StationManager.replenishLoop i sm pre = (sm1, true, evs1))
    (hst1 : sm1.stations[i]? = some st1)
    (hs : s = ing.required_quantity - firstStockQty ing.name st1.stock)
    (hpos : 0 < s)
    (hfail : (sm1.replenishStationIngredientFromBackup st1.name ing.name s).2 = false) :
    StationManager.replenishLoop i sm (pre ++ ing :: rest) =
      (sm1, false, evs1 ++ [Event.withdrawAttempt ing.name s false]) := by
  have hfe := StationManager.replenish_fail_eq sm1 st1.name ing.name s hfail
  rw [replenishLoop_append i pre (ing :: rest) sm, hpre]
  simp only
  rw [if_pos trivial]
  subst hs
  have hbody : StationManager.replenishLoop i sm1 (ing :: rest) =
      (sm1, false, [Event.withdrawAttempt ing.name
        (ing.required_quantity - firstStockQty ing.name st1.stock) false]) := by
    cases hres : sm1.replenishStationIngredientFromBackup st1.name ing.name
        (ing.required_quantity - firstStockQty ing.name st1.stock) with
    | mk sm2 ok =>
      rw [hres] at hfail hfe
      simp only at hfail hfe
      subst hfail
      simp [StationManager.replenishLoop, hst1, hpos, hres, hfe]
  rw [hbody]

theorem produceCalls_replenishLoop (i : Nat) :
    ∀ (l : List Ingredient) (sm : StationManager),
      produceCalls (StationManager.replenishLoop i sm l).2.2 = 0 := by
  intro l
  induction l with
  | nil => intro sm; rfl
  | cons ing rest ih =>
    intro sm
    cases hst : sm.stations[i]? with
    | none => simp [StationManager.replenishLoop, hst, produceCalls]
    | some st =>
      by_cases hpos : 0 < ing.required_quantity - firstStockQty ing.name st.stock
      · cases hres : sm.replenishStationIngredientFromBackup st.name ing.name
            (ing.required_quantity - firstStockQty ing.name st.stock) with
        | mk sm2 ok =>
          cases ok with
          | false => simp [StationManager.replenishLoop, hst, hpos, hres, produceCalls]
          | true =>
            have := ih sm2
            simp [StationManager.replenishLoop, hst, hpos, hres, produceCalls,
              List.countP_cons] at this ⊢
            exact this
      · simp only [StationManager.replenishLoop, hst, hpos, reduceIte]
        exact ih sm

/-- C2: per-station behavior of the `processAllDishes` walk. (a) With no
assignment for the dish's name the visit produces only the
"not available" report — no capability query, no withdrawal, no
production — and the state is untouched. (b) With a positive capability
query but failed production the visit records exactly the query and the
one failed production call, touches nothing, and does not enter the
replenishment branch (no withdrawal events). (c) With a failed
capability query the production step runs exactly once when the
replenishment loop fully succeeds and never otherwise; if the loop's
withdrawals succeed on a prefix of the dish's own ingredient list and
fail at the next positive shortfall, the visit ends right there with
the prefix's withdrawals recorded in order and the failing one last.
(d) Whenever the visit does not resolve the dish, the walk continues
with the next station on the updated state. -/
theorem processWalk_station_cases (B : StationBehavior) (sm : StationManager) (dish : Dish)
    (i : Nat) (st : KitchenStation) (hst : sm.stations[i]? = some st) :
    (st.dishes.any (fun d => d.name == dish.name) = false →
       StationManager.tryOneStation B sm dish i = (sm, false, [Event.notAvailable]))
    ∧ (st.dishes.any (fun d => d.name == dish.name) = true →
       B.canProduce st dish.name = true → B.produce st dish.name = none →
       StationManager.tryOneStation B sm dish i =
         (sm, false, [Event.canQuery true, Event.produceCall false]))
    ∧ (st.dishes.any (fun d => d.name == dish.name) = true →
       B.canProduce st dish.name = false →
       produceCalls (StationManager.tryOneStation B sm dish i).2.2 =
         (if (StationManager.replenishLoop i sm dish.ingredients).2.1 then 1 else 0)
       ∧ (∀ pre ing rest sm1 evs1 st1 s,
            dish.ingredients = pre ++ ing :: rest →
            StationManager.replenishLoop i sm pre = (sm1, true, evs1) →
            sm1.stations[i]? = some st1 →
            s = ing.required_quantity - firstStockQty ing.name st1.stock →
            0 < s →
            (sm1.replenishStationIngredientFromBackup st1.name ing.name s).2 = false →
            StationManager.tryOneStation B sm dish i =
              (sm1, false, Event.canQuery false ::
                (evs1 ++ [Event.withdrawAttempt ing.name s false]))))
    ∧ (∀ rest, (StationManager.tryOneStation B sm dish i).2.1 = false →
        StationManager.walkFrom B dish sm (i :: rest) =
          StationManager.walkFrom B dish (StationManager.tryOneStation B sm dish i).1 rest) := by
  refine ⟨?_, ?_, ?_, ?_⟩
  · intro hass
    simp [StationManager.tryOneStation, hst, hass]
  · intro hass hcan hprod
    simp [StationManager.tryOneStation, hst, hass, hcan, hprod]
  · intro hass hcan
    constructor
    · cases hloop : StationManager.replenishLoop i sm dish.ingredients with
      | mk sm1 pr =>
        cases pr with
        | mk ok evs =>
          have h0 := produceCalls_replenishLoop i dish.ingredients sm
          rw [hloop] at h0
          cases ok with
          | false =>
            simp only [StationManager.tryOneStation, hst, hass, hcan, hloop]
            simp only [produceCalls, List.countP_cons] at h0 ⊢
            simp [h0]
          | true =>
            cases hst1 : sm1.stations[i]? with
            | none =>
              exfalso
              have hlen := replenishLoop_stations_length i dish.ingredients sm
              rw [hloop] at hlen
              have hlen2 : sm1.stations.length = sm.stations.length := hlen
              have hi : i < sm.stations.length := by
                rcases List.getElem?_eq_some_iff.mp hst with ⟨hlt, _⟩
                exact hlt
              have : sm1.stations[i]? ≠ none := by
                intro hcon
                have := List.getElem?_eq_none_iff.mp hcon
                omega
              exact this hst1
            | some st1 =>
              cases hpr : B.produce st1 dish.name with
              | none =>
                simp only [StationManager.tryOneStation, hst, hass, hcan, hloop, hst1, hpr]
                simp only [produceCalls, List.countP_cons, List.countP_append] at h0 ⊢
                simp [h0, List.countP_cons]
              | some stock2 =>
                simp only [StationManager.tryOneStation, hst, hass, hcan, hloop, hst1, hpr]
                simp only [produceCalls, List.countP_cons, List.countP_append] at h0 ⊢
                simp [h0, List.countP_cons]
    · intro pre ing rest sm1 evs1 st1 s hsplit hpre hst1 hs hpos hfail
      have hloop := replenishLoop_prefix_fail i pre ing rest sm sm1 evs1 st1 s
        hpre hst1 hs hpos hfail
      rw [← hsplit] at hloop
      simp [StationManager.tryOneStation, hst, hass, hcan, hloop]
  · intro rest hfalse
    simp [StationManager.walkFrom, hfalse]

/-- Behavior oracle whose stations never pass the capability query
(forcing the replenishment branch). -/
def behaviorNever : StationBehavior := ⟨fun _ _ => false, fun _ _ => none⟩

/-- Behavior oracle whose capability query passes but whose production
step fails (the §7 anomaly case). -/
def behaviorYesFail : StationBehavior := ⟨fun _ _ => true, fun _ _ => none⟩

/-- Concrete dish and stations for the dispatch witnesses. -/
def dishD : Dish := ⟨"D", [⟨"Salt", 0, 1, 0⟩, ⟨"Pepper", 0, 1, 0⟩]⟩

def stNoDish : KitchenStation := ⟨"S", [], []⟩

def smNoDish : StationManager := ⟨[stNoDish], [], []⟩

def stWithDish : KitchenStation := ⟨"S", [dishD], []⟩

def smWithDish : StationManager := ⟨[stWithDish], [], [⟨"Salt", 1, 0, 0⟩]⟩

/-- The state after the Salt withdrawal succeeded (pool record erased at
zero, station credited) and before the Pepper withdrawal fails. -/
def smAfterSalt : StationManager :=
  ⟨[⟨"S", [dishD], [⟨"Salt", 1, 0, 0⟩]⟩], [], []⟩

/-- Witness for C2: all four branch conclusions at concrete inputs — the
unassigned skip, the capability-yes/production-no advance, the
mid-replenishment abort (Salt succeeds, Pepper fails), the zero
production count on an aborted loop, and the walk advancing. -/
theorem processWalk_station_cases_witness :
    StationManager.tryOneStation behaviorNever smNoDish dishD 0 =
      (smNoDish, false, [Event.notAvailable])
    ∧ StationManager.tryOneStation behaviorYesFail smWithDish dishD 0 =
      (smWithDish, false, [Event.canQuery true, Event.produceCall false])
    ∧ StationManager.tryOneStation behaviorNever smWithDish dishD 0 =
      (smAfterSalt, false, Event.canQuery false ::
        ([Event.withdrawAttempt "Salt" 1 true] ++ [Event.withdrawAttempt "Pepper" 1 false]))
    ∧ produceCalls (StationManager.tryOneStation behaviorNever smWithDish dishD 0).2.2 = 0
    ∧ StationManager.walkFrom behaviorNever dishD smNoDish [0] =
      StationManager.walkFrom behaviorNever dishD smNoDish [] := by
  have h1 := (processWalk_station_cases behaviorNever smNoDish dishD 0 stNoDish rfl).1 rfl
  have h2 := (processWalk_station_cases behaviorYesFail smWithDish dishD 0 stWithDish rfl).2.1
    (by decide) rfl rfl
  have h3 := ((processWalk_station_cases behaviorNever smWithDish dishD 0 stWithDish rfl).2.2.1
      (by decide) rfl).2 [⟨"Salt", 0, 1, 0⟩] ⟨"Pepper", 0, 1, 0⟩ [] smAfterSalt
      [Event.withdrawAttempt "Salt" 1 true] ⟨"S", [dishD], [⟨"Salt", 1, 0, 0⟩]⟩ 1
      (by decide) (by decide) (by decide) (by decide) (by decide) (by decide)
  have hcount := ((processWalk_station_cases behaviorNever smWithDish dishD 0 stWithDish rfl).2.2.1
      (by decide) rfl).1
  have h4 : produceCalls (StationManager.tryOneStation behaviorNever smWithDish dishD 0).2.2 = 0 := by
    rw [hcount]
    decide
  have h5 := (processWalk_station_cases behaviorNever smNoDish dishD 0 stNoDish rfl).2.2.2 []
    (by rw [h1])
  exact ⟨h1, h2, h3, h4, by rw [h5]; rw [h1]⟩

/-- C9: when the replenishment loop aborts at a later ingredient, the
withdrawals already performed for earlier ingredients are kept — the
station visit ends in exactly the partially-replenished state (pool
decremented, station credited), with the dish unprepared. -/
theorem replenishAbort_noRollback (B : StationBehavior) (sm : StationManager) (dish : Dish)
    (i : Nat) (st : KitchenStation) (pre : List Ingredient) (ing : Ingredient)
    (rest : List Ingredient) (sm1 : StationManager) (evs1 : List Event)
    (st1 : KitchenStation) (s : Int)
    (hst : sm.stations[i]? = some st)
    (hass : st.dishes.any (fun d => d.name == dish.name) = true)
    (hcan : B.canProduce st dish.name = false)
    (hsplit : dish.ingredients = pre ++ ing :: rest)
    (hpre : StationManager.replenishLoop i sm pre = (sm1, true, evs1))
    (hst1 : sm1.stations[i]? = some st1)
    (hs : s = ing.required_quantity - firstStockQty ing.name st1.stock)
    (hpos : 0 < s)
    (hfail : (sm1.replenishStationIngredientFromBackup st1.name ing.name s).2 = false) :
    (StationManager.tryOneStation B sm dish i).1 = sm1
    ∧ (StationManager.tryOneStation B sm dish i).2.1 = false := by
  have hloop := replenishLoop_prefix_fail i pre ing rest sm sm1 evs1 st1 s
    hpre hst1 hs hpos hfail
  rw [← hsplit] at hloop
  constructor <;> simp [StationManager.tryOneStation, hst, hass, hcan, hloop]

/-- Witness for C9: after the Salt withdrawal drains the pool record and
credits the station, the failing Pepper withdrawal aborts the visit but
the state keeps the Salt transfer (pool empty, station stock Salt=1),
and the dish is not prepared. -/
theorem replenishAbort_noRollback_witness :
    (StationManager.tryOneStation behaviorNever smWithDish dishD 0).1 = smAfterSalt
    ∧ (StationManager.tryOneStation behaviorNever smWithDish dishD 0).2.1 = false :=
  replenishAbort_noRollback behaviorNever smWithDish dishD 0 stWithDish
    [⟨"Salt", 0, 1, 0⟩] ⟨"Pepper", 0, 1, 0⟩ [] smAfterSalt
    [Event.withdrawAttempt "Salt" 1 true] ⟨"S", [dishD], [⟨"Salt", 1, 0, 0⟩]⟩ 1
    rfl (by decide) rfl (by decide) (by decide) (by decide) (by decide) (by decide) (by decide)

theorem processDishes_snd (B : StationBehavior) :
    ∀ (ds : List Dish) (sm : StationManager),
      (StationManager.processDishes B sm ds).2 =
        keepUnresolved ds (StationManager.passFlags B sm ds) := by
  intro ds
  induction ds with
  | nil => intro sm; rfl
  | cons d rest ih =>
    intro sm
    simp only [StationManager.processDishes, StationManager.passFlags, keepUnresolved]
    cases hok : (StationManager.processDish B sm d).2 <;> simp [hok, ih]

theorem keepUnresolved_sublist : ∀ (ds : List Dish) (fs : List Bool),
    List.Sublist (keepUnresolved ds fs) ds := by
  intro ds
  induction ds with
  | nil => intro fs; simp [keepUnresolved]
  | cons d rest ih =>
    intro fs
    cases fs with
    | nil => exact List.nil_sublist _
    | cons f fs2 =>
      cases f with
      | false =>
        simpa [keepUnresolved] using List.Sublist.cons₂ d (ih fs2)
      | true =>
        simpa [keepUnresolved] using List.Sublist.cons d (ih fs2)

/-- C1: after `processAllDishes` the queue holds exactly the dishes whose
station walk (at their turn, on the then-current state) resolved
nothing, as the order- and identity-preserving sublist of the original
queue selected by the per-dish resolution flags; every resolved dish is
gone. -/
theorem processAllDishes_queue (B : StationBehavior) (sm : StationManager) :
    (StationManager.processAllDishes B sm).dish_queue_ =
      keepUnresolved sm.dish_queue_
        (StationManager.passFlags B {sm with dish_queue_ := []} sm.dish_queue_)
    ∧ List.Sublist (StationManager.processAllDishes B sm).dish_queue_ sm.dish_queue_ := by
  have h1 : (StationManager.processAllDishes B sm).dish_queue_ =
      (StationManager.processDishes B {sm with dish_queue_ := []} sm.dish_queue_).2 := rfl
  constructor
  · rw [h1, processDishes_snd]
  · rw [h1, processDishes_snd]
    exact keepUnresolved_sublist _ _

end Bistro
